import Mathlib

/-!
Verification of the scale-library canonicalization and validation engine.

The definitions below shallowly embed the Python sources:
  * `src/scale_library/utils.py` (check_count_line, base_tone_string,
    validate_scale, check_scl_dir),
  * `src/scale_library/mailing_lists.py` (the validation/dedup core of
    write_out_results),
  * `src/scale_library/xenharmonikon.py` (class Tone, reduce),
  * `src/scale_library/damusc.py` (the rounded-cents fingerprint).

Python strings are modelled as `List Char` (ASCII; the data processed by the
library is ASCII), floating-point values as real numbers, and Python
`Fraction` values as `ℚ`.
-/

namespace ScaleLibrary

/-- The whitespace characters recognised by Python's `str.strip`, `str.split`
and the regex class `\s` (restricted to the ASCII range). -/
def isPyWs (c : Char) : Bool :=
  c = ' ' || c = '\t' || c = '\n' || c = '\r' || c = '\x0b' || c = '\x0c'

/-- Python `str.strip()`: remove leading and trailing whitespace. -/
def pyStrip (l : List Char) : List Char :=
  ((l.dropWhile isPyWs).reverse.dropWhile isPyWs).reverse

/-- Python `str.isdigit()`: nonempty and every character a digit (ASCII). -/
def pyIsdigit (l : List Char) : Bool :=
  !l.isEmpty && l.all Char.isDigit

/-- Python `line.startswith("!")`. -/
def startsBang : List Char → Bool
  | '!' :: _ => true
  | _ => false

/-- Python line iteration (`io.StringIO(text)` / `str.splitlines` keeping the
terminator): split at each newline, keeping the newline with its line; a final
fragment without a newline is its own line; the empty text has no lines. -/
def pyLines : List Char → List (List Char)
  | [] => []
  | c :: rest =>
    if c = '\n' then ['\n'] :: pyLines rest
    else
      match pyLines rest with
      | [] => [[c]]
      | l :: ls => (c :: l) :: ls

/-- Python substring test `pat in l`. -/
def hasSub (pat l : List Char) : Bool :=
  l.tails.any (fun t => pat.isPrefixOf t)

/-- Numeric value of a list of decimal digit characters. -/
def digitsToNat (l : List Char) : ℕ :=
  l.foldl (fun acc c => 10 * acc + (c.toNat - '0'.toNat)) 0

/-- Python `int(str)` on the validator's alphabet: optional surrounding
whitespace, an optional sign, then one or more digits.  (Underscore digit
separators never reach this point: they are rejected by the validator's
grammar check first.) -/
def parseInt (l : List Char) : Option ℤ :=
  let s1 := l.dropWhile isPyWs
  let p : ℤ × List Char :=
    match s1 with
    | '-' :: r => (-1, r)
    | '+' :: r => (1, r)
    | _ => (1, s1)
  let ds := p.2.takeWhile Char.isDigit
  let rest := p.2.drop ds.length
  if ds.isEmpty then none
  else if (rest.dropWhile isPyWs).isEmpty then some (p.1 * (digitsToNat ds : ℤ))
  else none

/-- Python `Fraction(str)` on the validator's alphabet (no `.`, no exponent,
no underscore separators reach it): optional surrounding whitespace, optional
sign, digits, optionally `/` and denominator digits.  The result is the
(signed numerator, denominator) pair as written; its value is the rational
numerator / denominator.  `Fraction("n/0")` raises `ZeroDivisionError` in
Python; it is modelled as no value. -/
def parseFraction (l : List Char) : Option (ℤ × ℕ) :=
  let s1 := l.dropWhile isPyWs
  let p : ℤ × List Char :=
    match s1 with
    | '-' :: r => (-1, r)
    | '+' :: r => (1, r)
    | _ => (1, s1)
  let ds := p.2.takeWhile Char.isDigit
  let rest := p.2.drop ds.length
  if ds.isEmpty then none
  else
    match rest with
    | '/' :: r2 =>
      let es := r2.takeWhile Char.isDigit
      let r3 := r2.drop es.length
      if es.isEmpty then none
      else if !(r3.dropWhile isPyWs).isEmpty then none
      else if digitsToNat es = 0 then none
      else some (p.1 * (digitsToNat ds : ℤ), digitsToNat es)
    | _ =>
      if (rest.dropWhile isPyWs).isEmpty then some (p.1 * (digitsToNat ds : ℤ), 1)
      else none

/-- Python `float(str)` on the validator's alphabet (exponents, `inf`, `nan`
never reach it: letters fail the grammar check): optional surrounding
whitespace, optional sign, then `digits`, `digits.digits`, `digits.` or
`.digits`.  The result is a (signed numerator, power-of-ten denominator) pair
whose quotient is the exact decimal value; the Python float is the nearest
double to it. -/
def parseFloat (l : List Char) : Option (ℤ × ℕ) :=
  let s1 := l.dropWhile isPyWs
  let p : ℤ × List Char :=
    match s1 with
    | '-' :: r => (-1, r)
    | '+' :: r => (1, r)
    | _ => (1, s1)
  let ds := p.2.takeWhile Char.isDigit
  let rest := p.2.drop ds.length
  match rest with
  | '.' :: r2 =>
    let fs := r2.takeWhile Char.isDigit
    let r3 := r2.drop fs.length
    if ds.isEmpty && fs.isEmpty then none
    else if !(r3.dropWhile isPyWs).isEmpty then none
    else some (p.1 * ((digitsToNat ds * 10 ^ fs.length + digitsToNat fs : ℕ) : ℤ), 10 ^ fs.length)
  | _ =>
    if ds.isEmpty then none
    else if (rest.dropWhile isPyWs).isEmpty then some (p.1 * (digitsToNat ds : ℤ), 1)
    else none

/-- The loop of `check_count_line` (utils.py): iterate over the lines of the
text, skipping lines that start with `!` but remembering them in the loop
variable, and stop as soon as the second non-comment line has been seen.
Returns the final value of the loop variable `line` (`none` when the text has
no lines at all, where Python would raise `NameError`). -/
def countLoop : List (List Char) → ℕ → Option (List Char) → Option (List Char)
  | [], _, cur => cur
  | l :: rest, count, _ =>
    if startsBang l then countLoop rest count (some l)
    else if count + 1 = 2 then some l
    else countLoop rest (count + 1) (some l)

/-- `check_count_line` (utils.py): the line left in the loop variable - the
second non-comment line when one exists - must be all digits after stripping
whitespace. -/
def check_count_line (scl_text : String) : Option Bool :=
  (countLoop (pyLines scl_text.toList) 0 none).map (fun l => pyIsdigit (pyStrip l))

/-- `removesuffix("cents")`. -/
def dropCentsSuffix (l : List Char) : List Char :=
  if "cents".toList.isSuffixOf l then l.take (l.length - 5) else l

/-- `base_tone_string` (utils.py): `tone_str.split("!")[0].strip().removesuffix("cents")`. -/
def base_tone_string (tone_str : String) : List Char :=
  dropCentsSuffix (pyStrip (tone_str.toList.takeWhile (fun c => c != '!')))

/-- The regex check `re.fullmatch(r"[0-9./\s-]*", tone_text)` in
`validate_scale`. -/
def toneGrammarOk (l : List Char) : Bool :=
  l.all (fun c => c.isDigit || c = '.' || c = '/' || isPyWs c || c = '-')

/-- Interface of a `tuning_library` tone as consumed by `validate_scale`:
its textual form in the scl file and its stored cent value. -/
structure STone where
  string_rep : String
  cents : ℝ

/-- Interface of a `tuning_library` scale as consumed by `validate_scale`. -/
structure SScale where
  raw_text : String
  tones : List STone

/-- The recomputed cent value of a tone text in `validate_scale`:
`1200 * log2(Fraction(tone_text)) if "." not in tone_text else float(tone_text)`.
`math.log2` raises `ValueError` on a nonpositive argument (caught by
`validate_scale`), hence the `0 < p.1` requirement in the no-dot branch. -/
def centValueR (l : List Char) (c : ℝ) : Prop :=
  if '.' ∈ l then ∃ p : ℤ × ℕ, parseFloat l = some p ∧ c = (p.1 : ℝ) / (p.2 : ℝ)
  else ∃ p : ℤ × ℕ, parseFraction l = some p ∧ 0 < p.1 ∧
    c = 1200 * Real.logb 2 ((p.1 : ℝ) / (p.2 : ℝ))

/-- The large-bare-integer check of `validate_scale`: if the tone text parses
as an `int`, its value must be below 100. -/
def intCheckOk (l : List Char) : Bool :=
  match parseInt l with
  | some n => decide (n < 100)
  | none => true

/-- The per-tone body of the `validate_scale` loop: grammar check, cent
recomputation agreeing with the stored cents within 1e-3, and the
large-bare-integer check. -/
def tone_ok (t : STone) : Prop :=
  toneGrammarOk (base_tone_string t.string_rep) = true ∧
  (∃ c : ℝ, centValueR (base_tone_string t.string_rep) c ∧ |c - t.cents| ≤ 1 / 1000) ∧
  intCheckOk (base_tone_string t.string_rep) = true

/-- `validate_scale` (utils.py).  The Python function returns `False` as soon
as any check fails and `True` otherwise; that is equivalent to this
conjunction. -/
def validate_scale (s : SScale) : Prop :=
  check_count_line s.raw_text = some true ∧
  hasSub "<div".toList s.raw_text.toList = false ∧
  hasSub "<p>".toList s.raw_text.toList = false ∧
  ∀ t ∈ s.tones, tone_ok t

/-- Python `round(x, k)` on reals: round `x * 10^k` to the nearest integer and
scale back.  (Python rounds exact half-ties to even; `round` here rounds them
up.  The cent values rounded in this development are never exact half-ties at
the used precisions, so the two agree on them.) -/
noncomputable def roundTo (k : ℕ) (x : ℝ) : ℝ :=
  ((round (x * 10 ^ k) : ℤ) : ℝ) / 10 ^ k

/-- The canonical fingerprint
`tuple(sorted(round(tone.cents, 5) for tone in scale.tones))` used for
deduplication in `write_out_results` (mailing_lists.py) and
`write_measured_scales` (damusc.py).  Two sorted tuples are equal exactly when
the underlying multisets are, so the fingerprint is modelled as the multiset
of rounded cent values. -/
noncomputable def fingerprint (tones : List STone) : Multiset ℝ :=
  ((tones.map (fun t => roundTo 5 t.cents) : List ℝ) : Multiset ℝ)

/-- Outcome of `check_scl_dir` (utils.py): the returned count, the
`ScaleValidationError` carrying the offending scale, the `AssertionError` from
the filename-uniqueness assert, or the `IndexError` raised by
`counter.most_common()[0]` on an empty counter. -/
inductive SclDirResult where
  | ok (n : ℕ)
  | validationError (s : SScale)
  | assertError
  | indexError

/-- `counter.most_common()[0][1]`: the largest multiplicity in the filename
counter. -/
def maxMult (acc : List String) : ℕ :=
  (acc.map (fun nm => acc.count nm)).foldr max 0

/-- The tail of `check_scl_dir` after the loop: `most_common()[0]` raises
`IndexError` on an empty counter; the assert demands the largest multiplicity
be 1; otherwise the total file count is returned. -/
def finishDir (acc : List String) : SclDirResult :=
  if acc.isEmpty then .indexError
  else if maxMult acc = 1 then .ok acc.length else .assertError

/-- `check_scl_dir` (utils.py) as a relation between the list of
(filename, parsed scale) pairs found under the directory, the filenames
accumulated so far, and the outcome: each scale is validated in turn, a
failing scale raises `ScaleValidationError(scale)` immediately, and the
filename counter is checked at the end.  (A relation rather than a function
because `validate_scale` is a proposition over real-valued cents.) -/
def check_scl_dir : List (String × SScale) → List String → SclDirResult → Prop
  | [], acc, r => r = finishDir acc
  | (nm, s) :: rest, acc, r =>
    (¬ validate_scale s ∧ r = SclDirResult.validationError s) ∨
    (validate_scale s ∧ check_scl_dir rest (acc ++ [nm]) r)

/-- The validation/deduplication core of the `write_out_results` loop
(mailing_lists.py): scales are processed in order (the Python code first sorts
by mailing-list priority and message id); a scale failing `validate_scale` is
skipped (`continue`), a scale whose fingerprint is already in `all_tones` is
skipped, and an accepted scale is written out and its fingerprint added.
The relation holds between the incoming scales, the fingerprints accepted so
far, and the list of scales written out.  Filename derivation and
clash-renaming are independent of these checks and are not modelled. -/
def write_out_loop : List SScale → List (Multiset ℝ) → List SScale → Prop
  | [], _, out => out = []
  | s :: rest, seen, out =>
    (¬ validate_scale s ∧ write_out_loop rest seen out) ∨
    (validate_scale s ∧ fingerprint s.tones ∈ seen ∧ write_out_loop rest seen out) ∨
    (validate_scale s ∧ fingerprint s.tones ∉ seen ∧
      ∃ rest_out, out = s :: rest_out ∧
        write_out_loop rest (fingerprint s.tones :: seen) rest_out)

/-- `class Tone` (xenharmonikon.py): the stored cent value and, when the tone
was built from a ratio, the numerator and denominator. -/
structure Tone where
  cents : ℝ
  ratio_n : Option ℤ
  ratio_d : Option ℤ

section
open Classical

/-- `Tone.__init__` with `y is None` (cent-value form): `self.cents = x`; the
assert `0.0 < self.cents <= period` makes an out-of-window cent value a
construction-time failure (`none`). -/
noncomputable def toneFromCents (x period : ℝ) : Option Tone :=
  if 0 < x ∧ x ≤ period then some ⟨x, none, none⟩ else none

/-- `Tone.__init__` with a ratio (x, y): `self.cents = 1200 * log2(x / y)`;
the optional `cents` keyword is cross-checked within 0.5 cents, and the assert
`0.0 < self.cents <= period` makes an out-of-window interval a
construction-time failure (`none`). -/
noncomputable def toneFromRatio (x y : ℤ) (period : ℝ) (centsArg : Option ℝ) :
    Option Tone :=
  let c : ℝ := 1200 * Real.logb 2 ((x : ℝ) / (y : ℝ))
  if (∀ c0 ∈ centsArg, |c0 - c| ≤ 0.5) ∧ 0 < c ∧ c ≤ period then
    some ⟨c, some x, some y⟩
  else none

end

/-- The textual form produced by `Tone._tone_string` (xenharmonikon.py):
either the string `"n/d"` or the cent value rounded to 6 decimal digits.
(The float and Decimal branches differ only in trailing textual zeros for
values already at 6 decimals or fewer, where the printed value equals the
rounded value; the rendered numeric value is carried here.) -/
inductive ToneRender where
  | ratioStr (n d : ℤ)
  | centsStr (c : ℝ)

/-- `Tone._tone_string` (xenharmonikon.py): a ratio tone renders as `"n/d"`
when both parts are at most `2^31 - 1` (`nmax`, the scl format's integer
limit) and otherwise falls back to the cent value rounded to 6 digits; a
non-ratio tone renders its (rounded) cent value. -/
noncomputable def tone_string (t : Tone) : ToneRender :=
  match t.ratio_n, t.ratio_d with
  | some n, some d =>
    if n ≤ 2 ^ 31 - 1 ∧ d ≤ 2 ^ 31 - 1 then ToneRender.ratioStr n d
    else ToneRender.centsStr (roundTo 6 t.cents)
  | _, _ => ToneRender.centsStr (roundTo 6 t.cents)

/-- The first loop of `reduce` (xenharmonikon.py), `while x <= 1: x *= 2`,
run with the given fuel: `some` is the value of `x` when the loop exits,
`none` means the fuel ran out before the loop exited. -/
def reduce_up : ℕ → ℚ → Option ℚ
  | 0, x => if x ≤ 1 then none else some x
  | n + 1, x => if x ≤ 1 then reduce_up n (x * 2) else some x

/-- The second loop of `reduce` (xenharmonikon.py), `while x > 2: x /= 2`,
run with the given fuel. -/
def reduce_down : ℕ → ℚ → Option ℚ
  | 0, x => if 2 < x then none else some x
  | n + 1, x => if 2 < x then reduce_down n (x / 2) else some x

/-- `reduce` (xenharmonikon.py) run with the given fuel bounding the number of
iterations of each loop.  The arithmetic is exact: the Python callers pass
`Fraction` values, modelled by `ℚ`. -/
def reduceF (n : ℕ) (x : ℚ) : Option ℚ :=
  (reduce_up n x).bind (reduce_down n)

/-- `reduce(x) = r`: some fuel suffices.  `reduceF` is monotone in the fuel,
so this determines `r` uniquely; no fuel sufficing for any `r` means the
Python loop diverges. -/
def reduceRel (x r : ℚ) : Prop :=
  ∃ n, reduceF n x = some r

/-- The first line of the text that does not start with `!`. -/
def firstNonCommentLine (text : String) : Option (List Char) :=
  (pyLines text.toList).find? (fun l => !startsBang l)

/-- Modelled from the spec (for comparison with `check_count_line`): "the
first non-comment line must be a string containing only digits (optionally
surrounded by whitespace)". -/
def specCountCheck (text : String) : Bool :=
  match firstNonCommentLine text with
  | some l => pyIsdigit (pyStrip l)
  | none => false

/-- The non-comment lines of the text, in order.  In the scl format the first
is the description line and the second is the count line. -/
def nonCommentLines (text : String) : List (List Char) :=
  (pyLines text.toList).filter (fun l => !startsBang l)

/-- A concrete valid tone: the line ` 700.0` with stored cents 700. -/
def tone700 : STone := ⟨" 700.0", 700⟩

/-- A concrete valid one-tone scale in canonical serialized form. -/
def scale700 : SScale := ⟨"! a.scl\n!\nA scale\n 1\n!\n 700.0\n", [tone700]⟩

/-- A scale whose description is broken over two lines, so the line in count
position is not numeric: the known failure mode `check_count_line` guards
against. -/
def badCountScale : SScale :=
  ⟨"A scale description\nbroken over lines\n 2\n!\n 700.0\n 1200.0\n", []⟩

/-- The tone `3/2` stored with its exact cent value `1200*log2(3/2)`. -/
noncomputable def toneRatio32 : STone := ⟨" 3/2", 1200 * Real.logb 2 (3 / 2)⟩

/-- The same interval written as the pre-rounded cent value `701.955`. -/
def toneCents701955 : STone := ⟨" 701.955", 701.955⟩

/-- A one-tone scale containing `3/2`. -/
noncomputable def scaleRatio32 : SScale :=
  ⟨"! f.scl\n!\nd\n 1\n!\n 3/2\n", [toneRatio32]⟩

/-- A one-tone scale containing `701.955`. -/
def scaleCents701955 : SScale :=
  ⟨"! g.scl\n!\nd\n 1\n!\n 701.955\n", [toneCents701955]⟩

/-! ## Basic lemmas -/

/-- The recomputed cent value of a tone text is unique. -/
lemma centValueR_unique {l : List Char} {c c' : ℝ}
    (h : centValueR l c) (h' : centValueR l c') : c = c' := by
  unfold centValueR at h h'
  split at h
  · obtain ⟨p, hp, rfl⟩ := h
    rw [if_pos (by assumption)] at h'
    obtain ⟨p', hp', rfl⟩ := h'
    rw [hp] at hp'
    cases hp'
    rfl
  · obtain ⟨p, hp, -, rfl⟩ := h
    rw [if_neg (by assumption)] at h'
    obtain ⟨p', hp', -, rfl⟩ := h'
    rw [hp] at hp'
    cases hp'
    rfl

/-- `validate_scale` holds for the concrete scale `scale700`. -/
lemma scale700_valid : validate_scale scale700 := by
  refine ⟨by decide, by decide, by decide, ?_⟩
  intro t ht
  have ht' : t = tone700 := by
    simpa [scale700] using ht
  subst ht'
  refine ⟨by decide, ⟨700, ?_, by norm_num [tone700]⟩, by decide⟩
  have hdot : '.' ∈ base_tone_string tone700.string_rep := by decide
  rw [centValueR, if_pos hdot]
  exact ⟨(7000, 10), by decide, by norm_num⟩

/-- C1: a scale accepted by the validator has, for each tone, a
comment-stripped textual form matching the digits / slash / dot / dash /
whitespace grammar and a recomputed cent value (1200*log2 of the parsed
rational when the text has no decimal point, the directly parsed cent value
when it does) within 1e-3 of the stored cents; and a scale with a tone
failing the grammar check or the 1e-3 agreement is rejected. -/
theorem validator_tone_consistency (S : SScale) :
    (validate_scale S → ∀ t ∈ S.tones,
      toneGrammarOk (base_tone_string t.string_rep) = true ∧
      ∃ c : ℝ, centValueR (base_tone_string t.string_rep) c ∧
        |c - t.cents| ≤ 1 / 1000) ∧
    (∀ t ∈ S.tones,
      (toneGrammarOk (base_tone_string t.string_rep) = false ∨
        ∃ c : ℝ, centValueR (base_tone_string t.string_rep) c ∧
          1 / 1000 < |c - t.cents|) →
      ¬ validate_scale S) := by
  constructor
  · intro hv t ht
    obtain ⟨g, hc, -⟩ := hv.2.2.2 t ht
    exact ⟨g, hc⟩
  · rintro t ht (hbad | ⟨c, hc, hgt⟩) hv
    · obtain ⟨g, -, -⟩ := hv.2.2.2 t ht
      rw [g] at hbad
      cases hbad
    · obtain ⟨-, ⟨c', hc', hle⟩, -⟩ := hv.2.2.2 t ht
      rw [centValueR_unique hc hc'] at hgt
      exact absurd hle (not_le.mpr hgt)

/-- Witness for C1 at the concrete accepted scale `scale700`. -/
theorem validator_tone_consistency_witness :
    toneGrammarOk (base_tone_string tone700.string_rep) = true ∧
    ∃ c : ℝ, centValueR (base_tone_string tone700.string_rep) c ∧
      |c - tone700.cents| ≤ 1 / 1000 :=
  (validator_tone_consistency scale700).1 scale700_valid tone700
    (List.mem_singleton.mpr rfl)

/-- C9: a tone whose stripped text parses as a bare integer (no decimal
point, no slash) of value at least 100 makes the validator flag the scale as
invalid. -/
theorem large_bare_integer_rejected (S : SScale) (t : STone) (n : ℤ)
    (ht : t ∈ S.tones) (hp : parseInt (base_tone_string t.string_rep) = some n)
    (hn : 100 ≤ n) : ¬ validate_scale S := by
  intro hv
  obtain ⟨-, -, hint⟩ := hv.2.2.2 t ht
  unfold intCheckOk at hint
  rw [hp] at hint
  simp only [decide_eq_true_eq] at hint
  omega

/-- Witness for C9: a scale containing the bare-integer tone line ` 1094`
is rejected. -/
theorem large_bare_integer_rejected_witness :
    ¬ validate_scale ⟨"x\n 1\n!\n 1094\n", [⟨" 1094", 0⟩]⟩ :=
  large_bare_integer_rejected _ ⟨" 1094", 0⟩ 1094
    (List.mem_singleton.mpr rfl) (by decide) (by decide)

/-- When one non-comment line has already been counted, the loop of
`check_count_line` stops at the next non-comment line. -/
lemma countLoop_from_one (l : List Char) (ls : List (List Char)) :
    ∀ cur : Option (List Char),
      (ls.filter (fun x => !startsBang x))[0]? = some l →
      countLoop ls 1 cur = some l := by
  induction ls with
  | nil => intro cur h; simp at h
  | cons x rest ih =>
    intro cur h
    by_cases hx : startsBang x = true
    · rw [List.filter_cons_of_neg (by simp [hx])] at h
      simp only [countLoop, if_pos hx]
      exact ih _ h
    · rw [List.filter_cons_of_pos (by simp [hx])] at h
      simp only [List.getElem?_cons_zero, Option.some.injEq] at h
      subst h
      simp [countLoop, hx]

/-- The loop of `check_count_line`, started with count 0, stops at the second
non-comment line when there is one. -/
lemma countLoop_from_zero (l : List Char) (ls : List (List Char)) :
    ∀ cur : Option (List Char),
      (ls.filter (fun x => !startsBang x))[1]? = some l →
      countLoop ls 0 cur = some l := by
  induction ls with
  | nil => intro cur h; simp at h
  | cons x rest ih =>
    intro cur h
    by_cases hx : startsBang x = true
    · rw [List.filter_cons_of_neg (by simp [hx])] at h
      simp only [countLoop, if_pos hx]
      exact ih _ h
    · rw [List.filter_cons_of_pos (by simp [hx])] at h
      simp only [List.getElem?_cons_succ] at h
      simp only [countLoop, if_neg hx]
      rw [if_neg (by norm_num)]
      exact countLoop_from_one l rest (some x) h

/-- C2 counterexample: the claim ties acceptance to the first non-comment
line, but on a text whose first non-comment line is "12 extra words" (and
whose second is numeric) `check_count_line` accepts, while the claimed
first-line digit condition fails. -/
theorem count_line_first_line_claim_false :
    check_count_line "12 extra words\n5\n" = some true ∧
    specCountCheck "12 extra words\n5\n" = false :=
  ⟨by decide, by decide⟩

/-- C2 amended: the count-line check accepts a scale text if and only if its
second non-comment line (the scl count line, after the description line),
trimmed of surrounding whitespace, consists only of digits; in particular a
text whose second non-comment line is "12 extra words" is rejected. -/
theorem count_line_checks_second_line (text : String) (l : List Char)
    (h : (nonCommentLines text)[1]? = some l) :
    check_count_line text = some (pyIsdigit (pyStrip l)) := by
  unfold check_count_line
  rw [countLoop_from_zero l (pyLines text.toList) none h]
  rfl

/-- Witness for the amended C2: a text whose second non-comment line is
"12 extra words" is rejected by `check_count_line`. -/
theorem count_line_checks_second_line_witness :
    check_count_line "A scale\n12 extra words\n" = some false := by
  rw [count_line_checks_second_line "A scale\n12 extra words\n"
    "12 extra words\n".toList (by decide)]
  decide

/-- Every member of a list of naturals is at most their `foldr max 0`. -/
lemma le_foldr_max {l : List ℕ} {x : ℕ} (h : x ∈ l) : x ≤ l.foldr max 0 := by
  induction l with
  | nil => cases h
  | cons a t ih =>
    rcases List.mem_cons.mp h with rfl | hm
    · exact le_max_left _ _
    · exact le_trans (ih hm) (le_max_right _ _)

/-- `foldr max 0` of a list of naturals is bounded by a bound on its members. -/
lemma foldr_max_le {l : List ℕ} {n : ℕ} (h : ∀ x ∈ l, x ≤ n) :
    l.foldr max 0 ≤ n := by
  induction l with
  | nil => exact Nat.zero_le n
  | cons a t ih =>
    exact max_le (h a (List.mem_cons_self a t)) (ih fun x hx => h x (List.mem_cons_of_mem a hx))

/-- For a nonempty filename list, the uniqueness assert of `check_scl_dir`
(`most_common()[0][1] == 1`) holds exactly when the filenames are distinct. -/
lemma maxMult_eq_one_iff {acc : List String} (h : acc ≠ []) :
    maxMult acc = 1 ↔ acc.Nodup := by
  constructor
  · intro h1
    refine List.nodup_iff_count_le_one.mpr fun a => ?_
    by_cases ha : a ∈ acc
    · have hmem : acc.count a ∈ acc.map (fun nm => acc.count nm) :=
        List.mem_map_of_mem _ ha
      have := le_foldr_max hmem
      rw [maxMult] at h1
      omega
    · rw [List.count_eq_zero_of_not_mem ha]
      omega
  · intro hnd
    obtain ⟨x, hx⟩ := List.exists_mem_of_ne_nil acc h
    refine le_antisymm ?_ ?_
    · refine foldr_max_le fun c hc => ?_
      obtain ⟨nm, -, rfl⟩ := List.mem_map.mp hc
      exact List.nodup_iff_count_le_one.mp hnd nm
    · calc 1 = acc.count x := (List.count_eq_one_of_mem hnd hx).symm
        _ ≤ maxMult acc := le_foldr_max (List.mem_map_of_mem _ hx)

/-- When every scale in the directory validates, `check_scl_dir` runs its
loop to the end, accumulating every filename. -/
lemma check_scl_dir_all_valid {files : List (String × SScale)}
    (hv : ∀ p ∈ files, validate_scale p.2) :
    ∀ (acc : List String) (r : SclDirResult),
      (check_scl_dir files acc r ↔ r = finishDir (acc ++ files.map Prod.fst)) := by
  induction files with
  | nil => intro acc r; simp [check_scl_dir]
  | cons p rest ih =>
    intro acc r
    obtain ⟨nm, s⟩ := p
    have hs : validate_scale s := hv _ (List.mem_cons_self _ _)
    have hrest : ∀ q ∈ rest, validate_scale q.2 :=
      fun q hq => hv q (List.mem_cons_of_mem _ hq)
    simp only [check_scl_dir]
    constructor
    · rintro (⟨hns, -⟩ | ⟨-, hrec⟩)
      · exact absurd hs hns
      · rw [ih hrest (acc ++ [nm]) r] at hrec
        simpa using hrec
    · intro hr
      refine Or.inr ⟨hs, (ih hrest (acc ++ [nm]) r).mpr ?_⟩
      simpa using hr

/-- C10: on a tree where every scl file validates and all filenames are
distinct, `check_scl_dir` returns the total file count; but on a tree with
zero scl files the uniqueness assert indexes an empty counter, producing the
IndexError outcome rather than a count of 0. -/
theorem check_scl_dir_requires_file (files : List (String × SScale))
    (r : SclDirResult) :
    ((∀ p ∈ files, validate_scale p.2) → (files.map Prod.fst).Nodup →
      files ≠ [] →
      (check_scl_dir files [] r ↔ r = SclDirResult.ok files.length)) ∧
    (check_scl_dir [] [] r ↔ r = SclDirResult.indexError) := by
  constructor
  · intro hv hnd hne
    rw [check_scl_dir_all_valid hv [] r]
    have hmapne : files.map Prod.fst ≠ [] := by
      simpa using hne
    rw [List.nil_append, finishDir, if_neg (by simpa using hmapne),
      if_pos ((maxMult_eq_one_iff hmapne).mpr hnd)]
    simp
  · simp [check_scl_dir, finishDir]

/-- Witness for C10: a single valid file gives count 1, and the empty tree
does not give count 0. -/
theorem check_scl_dir_requires_file_witness :
    check_scl_dir [("a.scl", scale700)] [] (SclDirResult.ok 1) ∧
    ¬ check_scl_dir [] [] (SclDirResult.ok 0) := by
  constructor
  · exact ((check_scl_dir_requires_file [("a.scl", scale700)]
        (SclDirResult.ok 1)).1
      (by rintro p hp; rw [List.mem_singleton.mp hp]; exact scale700_valid)
      (by decide) (by simp)).mpr rfl
  · intro h
    have := (check_scl_dir_requires_file [] (SclDirResult.ok 0)).2.mp h
    cases this

/-- `check_scl_dir` raises `ScaleValidationError(scale)` at the first scale
failing validation. -/
lemma check_scl_dir_first_failure {s : SScale} (hs : ¬ validate_scale s) :
    ∀ (pre : List (String × SScale)) (nm : String)
      (post : List (String × SScale)) (acc : List String) (r : SclDirResult),
      (∀ p ∈ pre, validate_scale p.2) →
      (check_scl_dir (pre ++ (nm, s) :: post) acc r ↔
        r = SclDirResult.validationError s) := by
  intro pre
  induction pre with
  | nil =>
    intro nm post acc r _
    simp only [List.nil_append, check_scl_dir]
    constructor
    · rintro (⟨-, hr⟩ | ⟨hv, -⟩)
      · exact hr
      · exact absurd hv hs
    · intro hr
      exact Or.inl ⟨hs, hr⟩
  | cons p rest ih =>
    intro nm post acc r hv
    obtain ⟨nm2, s2⟩ := p
    have hs2 : validate_scale s2 := hv _ (List.mem_cons_self _ _)
    simp only [List.cons_append, check_scl_dir]
    constructor
    · rintro (⟨hns2, -⟩ | ⟨-, hrec⟩)
      · exact absurd hs2 hns2
      · exact (ih nm post _ r fun q hq => hv q (List.mem_cons_of_mem _ hq)).mp hrec
    · intro hr
      exact Or.inr ⟨hs2, (ih nm post _ r fun q hq =>
        hv q (List.mem_cons_of_mem _ hq)).mpr hr⟩

/-- The `write_out_results` loop always runs to completion: every incoming
batch yields an output list (validation failures are skipped, not raised). -/
lemma write_out_loop_total (scales : List SScale) :
    ∀ seen : List (Multiset ℝ), ∃ out, write_out_loop scales seen out := by
  induction scales with
  | nil => exact fun seen => ⟨[], rfl⟩
  | cons s rest ih =>
    intro seen
    by_cases hv : validate_scale s
    · by_cases hm : fingerprint s.tones ∈ seen
      · obtain ⟨out, ho⟩ := ih seen
        exact ⟨out, Or.inr (Or.inl ⟨hv, hm, ho⟩)⟩
      · obtain ⟨out, ho⟩ := ih (fingerprint s.tones :: seen)
        exact ⟨s :: out, Or.inr (Or.inr ⟨hv, hm, out, rfl, ho⟩)⟩
    · obtain ⟨out, ho⟩ := ih seen
      exact ⟨out, Or.inl ⟨hv, ho⟩⟩

/-- Everything the `write_out_results` loop writes out passed validation. -/
lemma write_out_loop_valid (scales : List SScale) :
    ∀ (seen : List (Multiset ℝ)) (out : List SScale),
      write_out_loop scales seen out → ∀ s ∈ out, validate_scale s := by
  induction scales with
  | nil =>
    rintro seen out rfl s hs
    cases hs
  | cons s0 rest ih =>
    rintro seen out (⟨-, ho⟩ | ⟨-, -, ho⟩ | ⟨hv, -, rest_out, rfl, ho⟩) s hs
    · exact ih seen out ho s hs
    · exact ih seen out ho s hs
    · rcases List.mem_cons.mp hs with rfl | hm
      · exact hv
      · exact ih _ rest_out ho s hm

/-- C3 counterexample: a batch handed to the `write_out_results` loop
containing a scale that fails validation completes normally with the scale
skipped; no exception aborts the batch. -/
theorem validation_failure_always_raises_false :
    ¬ validate_scale badCountScale ∧ write_out_loop [badCountScale] [] [] := by
  have hnv : ¬ validate_scale badCountScale := fun h => absurd h.1 (by decide)
  exact ⟨hnv, Or.inl ⟨hnv, rfl⟩⟩

/-- C3 amended: in the library-wide pass `check_scl_dir`, the first scale
failing validation raises `ScaleValidationError` carrying that scale as its
payload, aborting the pass; the mailing-list writer, by contrast, always
completes its batch, skipping scales that fail validation rather than
writing them. -/
theorem validation_failure_paths (pre : List (String × SScale)) (nm : String)
    (s : SScale) (post : List (String × SScale)) (acc : List String)
    (r : SclDirResult) (scales : List SScale) (seen : List (Multiset ℝ)) :
    ((∀ p ∈ pre, validate_scale p.2) → ¬ validate_scale s →
      (check_scl_dir (pre ++ (nm, s) :: post) acc r ↔
        r = SclDirResult.validationError s)) ∧
    (∃ out, write_out_loop scales seen out) ∧
    (∀ out, write_out_loop scales seen out → ∀ s2 ∈ out, validate_scale s2) := by
  refine ⟨fun hpre hs => check_scl_dir_first_failure hs pre nm post acc r hpre,
    write_out_loop_total scales seen,
    fun out ho s2 hs2 => write_out_loop_valid scales seen out ho s2 hs2⟩

/-- Witness for the amended C3: the consistency pass over a directory whose
single scale fails validation errors out carrying that scale, while the
mailing-list loop over the same scale completes. -/
theorem validation_failure_paths_witness :
    check_scl_dir [("b.scl", badCountScale)] []
      (SclDirResult.validationError badCountScale) ∧
    ∃ out, write_out_loop [badCountScale] [] out := by
  have h := validation_failure_paths [] "b.scl" badCountScale [] []
    (SclDirResult.validationError badCountScale) [badCountScale] []
  exact ⟨(h.1 (by simp) fun hv => absurd hv.1 (by decide)).mpr rfl, h.2.1⟩

/-- Once `x > 1` the doubling loop exits immediately with `x`. -/
lemma reduce_up_of_not_le {x : ℚ} (h : ¬ x ≤ 1) (n : ℕ) :
    reduce_up n x = some x := by
  cases n <;> simp [reduce_up, h]

/-- More fuel never changes the result of the doubling loop. -/
lemma reduce_up_mono : ∀ (n : ℕ) {m : ℕ} (x : ℚ) {r : ℚ}, n ≤ m →
    reduce_up n x = some r → reduce_up m x = some r := by
  intro n
  induction n with
  | zero =>
    intro m x r _ h0
    by_cases hx : x ≤ 1
    · rw [reduce_up, if_pos hx] at h0
      cases h0
    · rw [reduce_up, if_neg hx] at h0
      rw [reduce_up_of_not_le hx m]
      exact h0
  | succ n ih =>
    intro m x r hle h
    obtain ⟨m', rfl⟩ : ∃ m', m = m' + 1 := ⟨m - 1, by omega⟩
    by_cases hx : x ≤ 1
    · rw [reduce_up, if_pos hx] at h ⊢
      exact ih _ (by omega) h
    · rw [reduce_up, if_neg hx] at h ⊢
      exact h

/-- Once `x ≤ 2` the halving loop exits immediately with `x`. -/
lemma reduce_down_of_not_lt {x : ℚ} (h : ¬ 2 < x) (n : ℕ) :
    reduce_down n x = some x := by
  cases n <;> simp [reduce_down, h]

/-- More fuel never changes the result of the halving loop. -/
lemma reduce_down_mono : ∀ (n : ℕ) {m : ℕ} (x : ℚ) {r : ℚ}, n ≤ m →
    reduce_down n x = some r → reduce_down m x = some r := by
  intro n
  induction n with
  | zero =>
    intro m x r _ h0
    by_cases hx : 2 < x
    · rw [reduce_down, if_pos hx] at h0
      cases h0
    · rw [reduce_down, if_neg hx] at h0
      rw [reduce_down_of_not_lt hx m]
      exact h0
  | succ n ih =>
    intro m x r hle h
    obtain ⟨m', rfl⟩ : ∃ m', m = m' + 1 := ⟨m - 1, by omega⟩
    by_cases hx : 2 < x
    · rw [reduce_down, if_pos hx] at h ⊢
      exact ih _ (by omega) h
    · rw [reduce_down, if_neg hx] at h ⊢
      exact h

/-- More fuel never changes the result of `reduce`. -/
lemma reduceF_mono {n m : ℕ} (x : ℚ) {r : ℚ} (hle : n ≤ m)
    (h : reduceF n x = some r) : reduceF m x = some r := by
  rw [reduceF] at h
  obtain ⟨u, hu, hd⟩ := Option.bind_eq_some.mp h
  rw [reduceF, reduce_up_mono n x hle hu]
  exact reduce_down_mono n u hle hd

/-- The result of `reduce` is independent of the fuel. -/
lemma reduceRel_unique {x r r' : ℚ} (h : reduceRel x r) (h' : reduceRel x r') :
    r = r' := by
  obtain ⟨n, hn⟩ := h
  obtain ⟨m, hm⟩ := h'
  have h1 := reduceF_mono x (le_max_left n m) hn
  have h2 := reduceF_mono x (le_max_right n m) hm
  rw [h1] at h2
  exact (Option.some.injEq _ _ ▸ h2)

/-- The doubling loop only exits at a value above 1. -/
lemma reduce_up_gt_one : ∀ (n : ℕ) (x u : ℚ), reduce_up n x = some u → 1 < u := by
  intro n
  induction n with
  | zero =>
    intro x u h
    rw [reduce_up] at h
    split at h
    · cases h
    · rename_i hc
      cases h
      exact not_le.mp hc
  | succ n ih =>
    intro x u h
    rw [reduce_up] at h
    split at h
    · exact ih _ _ h
    · rename_i hc
      cases h
      exact not_le.mp hc

/-- The halving loop only exits at a value at most 2. -/
lemma reduce_down_le_two : ∀ (n : ℕ) (x r : ℚ), reduce_down n x = some r → r ≤ 2 := by
  intro n
  induction n with
  | zero =>
    intro x r h
    rw [reduce_down] at h
    split at h
    · cases h
    · rename_i hc
      cases h
      exact not_lt.mp hc
  | succ n ih =>
    intro x r h
    rw [reduce_down] at h
    split at h
    · exact ih _ _ h
    · rename_i hc
      cases h
      exact not_lt.mp hc

/-- Halving a value above 1 stops above 1: the loop divides only values
above 2. -/
lemma reduce_down_gt_one : ∀ (n : ℕ) (x r : ℚ), 1 < x →
    reduce_down n x = some r → 1 < r := by
  intro n
  induction n with
  | zero =>
    intro x r hx h
    rw [reduce_down] at h
    split at h
    · cases h
    · cases h
      exact hx
  | succ n ih =>
    intro x r hx h
    rw [reduce_down] at h
    split at h
    · refine ih _ _ (by linarith) h
    · cases h
      exact hx

/-- The doubling loop terminates on positive input, with fuel any `k` making
`2^k * x` exceed 1; the result stays at most `max 2 x`. -/
lemma reduce_up_exists : ∀ (k : ℕ) (x : ℚ), 0 < x → 1 < 2 ^ k * x →
    ∃ u, reduce_up k x = some u ∧ 1 < u ∧ u ≤ max 2 x := by
  intro k
  induction k with
  | zero =>
    intro x hx h1
    rw [pow_zero, one_mul] at h1
    exact ⟨x, by rw [reduce_up, if_neg (not_le.mpr h1)], h1, le_max_right _ _⟩
  | succ k ih =>
    intro x hx h1
    by_cases hxle : x ≤ 1
    · have h2 : 1 < 2 ^ k * (x * 2) := by
        rw [show (2:ℚ) ^ k * (x * 2) = 2 ^ (k + 1) * x by ring]
        exact h1
      obtain ⟨u, hu, hu1, hu2⟩ := ih (x * 2) (by positivity) h2
      refine ⟨u, ?_, hu1, ?_⟩
      · rw [reduce_up, if_pos hxle]
        exact hu
      · rw [max_eq_left (by linarith : x * 2 ≤ 2)] at hu2
        exact hu2.trans (le_max_left _ _)
    · exact ⟨x, by rw [reduce_up, if_neg hxle], not_le.mp hxle, le_max_right _ _⟩

/-- The halving loop terminates, with fuel any `k` making `2^k * 2` reach the
input. -/
lemma reduce_down_exists : ∀ (k : ℕ) (x : ℚ), x ≤ 2 ^ k * 2 →
    ∃ r, reduce_down k x = some r := by
  intro k
  induction k with
  | zero =>
    intro x h1
    rw [pow_zero, one_mul] at h1
    exact ⟨x, by rw [reduce_down, if_neg (not_lt.mpr h1)]⟩
  | succ k ih =>
    intro x h1
    by_cases hx : 2 < x
    · have h2 : x / 2 ≤ 2 ^ k * 2 := by
        rw [div_le_iff₀ (by norm_num : (0:ℚ) < 2)]
        calc x ≤ 2 ^ (k + 1) * 2 := h1
          _ = 2 ^ k * 2 * 2 := by ring
      obtain ⟨r, hr⟩ := ih (x / 2) h2
      exact ⟨r, by rw [reduce_down, if_pos hx]; exact hr⟩
    · exact ⟨x, by rw [reduce_down, if_neg hx]⟩

/-- On a positive rational, some fuel suffices for both loops of `reduce`,
and the result lands in the window (1, 2]. -/
lemma reduceF_exists {x : ℚ} (hx : 0 < x) :
    ∃ n r, reduceF n x = some r ∧ 1 < r ∧ r ≤ 2 := by
  obtain ⟨k1, hk1⟩ := pow_unbounded_of_one_lt (1 / x) (by norm_num : (1:ℚ) < 2)
  have h1 : 1 < 2 ^ k1 * x := by
    rw [div_lt_iff₀ hx] at hk1
    linarith
  obtain ⟨u, hu, hu1, -⟩ := reduce_up_exists k1 x hx h1
  obtain ⟨k2, hk2⟩ := pow_unbounded_of_one_lt (u / 2) (by norm_num : (1:ℚ) < 2)
  have h2 : u ≤ 2 ^ k2 * 2 := by
    rw [div_lt_iff₀ (by norm_num : (0:ℚ) < 2)] at hk2
    linarith
  obtain ⟨r, hr⟩ := reduce_down_exists k2 u h2
  refine ⟨max k1 k2, r, ?_, reduce_down_gt_one k2 u r hu1 hr,
    reduce_down_le_two k2 u r hr⟩
  rw [reduceF, reduce_up_mono k1 x (le_max_left _ _) hu]
  exact reduce_down_mono k2 u (le_max_right _ _) hr

/-- On a nonpositive rational, the doubling loop never exits: every fuel runs
out. -/
lemma reduce_up_nonpos {x : ℚ} (hx : x ≤ 0) : ∀ n, reduce_up n x = none := by
  have key : ∀ (n : ℕ) (y : ℚ), y ≤ 0 → reduce_up n y = none := by
    intro n
    induction n with
    | zero =>
      intro y hy
      rw [reduce_up, if_pos (by linarith)]
    | succ n ih =>
      intro y hy
      rw [reduce_up, if_pos (by linarith)]
      exact ih _ (by linarith)
  exact fun n => key n x hx

/-- C7: for every positive rational the `reduce` loop terminates with a value
in (1, 2] (the code's period ratio is the octave 2/1); for nonpositive input
no amount of fuel makes the first loop exit, so positivity is exactly the
precondition. -/
theorem reduce_terminates_iff_positive (x : ℚ) :
    (0 < x → ∃ n r, reduceF n x = some r ∧ 1 < r ∧ r ≤ 2) ∧
    (x ≤ 0 → ∀ n, reduceF n x = none) := by
  refine ⟨fun hx => reduceF_exists hx, fun hx n => ?_⟩
  rw [reduceF, reduce_up_nonpos hx n]
  rfl

/-- Witness for C7 at x = 3. -/
theorem reduce_terminates_iff_positive_witness :
    ∃ n r, reduceF n 3 = some r ∧ 1 < r ∧ r ≤ 2 :=
  (reduce_terminates_iff_positive 3).1 (by norm_num)

/-- C6: for every positive rational x, reduce is idempotent and its result
lies strictly above 1 and at most the period ratio 2 (the code's octave
case), all in exact rational arithmetic. -/
theorem reduce_idempotent_range (x r : ℚ) (_hx : 0 < x) (h : reduceRel x r) :
    (1 < r ∧ r ≤ 2) ∧ reduceRel r r ∧ ∀ r', reduceRel x r' → r' = r := by
  obtain ⟨n, hn⟩ := h
  rw [reduceF] at hn
  obtain ⟨u, hu, hd⟩ := Option.bind_eq_some.mp hn
  have hu1 : 1 < u := reduce_up_gt_one n x u hu
  have hr1 : 1 < r := reduce_down_gt_one n u r hu1 hd
  have hr2 : r ≤ 2 := reduce_down_le_two n u r hd
  refine ⟨⟨hr1, hr2⟩, ⟨0, ?_⟩, fun r' h' => reduceRel_unique h' ⟨n, hn⟩⟩
  rw [reduceF, reduce_up, if_neg (not_le.mpr hr1)]
  show reduce_down 0 r = some r
  rw [reduce_down, if_neg (not_lt.mpr hr2)]

/-- Witness for C6: reduce(6) = 3/2, which is a fixed point of reduce. -/
theorem reduce_idempotent_range_witness :
    (1 < (3/2 : ℚ) ∧ (3/2 : ℚ) ≤ 2) ∧ reduceRel (3/2) (3/2) ∧
      ∀ r', reduceRel 6 r' → r' = 3/2 :=
  reduce_idempotent_range 6 (3/2) (by norm_num)
    ⟨2, by norm_num [reduceF, reduce_up, reduce_down]⟩

/-- C5: a successfully constructed Tone satisfies 0 < cents ≤ period, with
cents derived as 1200*log2(x/y) in the ratio case; a cents value outside the
window makes construction itself fail (the assert fires), not a later
validation. -/
theorem tone_invariant (x : ℝ) (xi yi : ℤ) (period : ℝ) (centsArg : Option ℝ)
    (t t' : Tone) :
    (toneFromCents x period = some t → 0 < t.cents ∧ t.cents ≤ period) ∧
    (toneFromRatio xi yi period centsArg = some t' →
      t'.cents = 1200 * Real.logb 2 ((xi : ℝ) / (yi : ℝ)) ∧
      0 < t'.cents ∧ t'.cents ≤ period) ∧
    (¬ (0 < x ∧ x ≤ period) → toneFromCents x period = none) ∧
    (¬ (0 < 1200 * Real.logb 2 ((xi : ℝ) / (yi : ℝ)) ∧
        1200 * Real.logb 2 ((xi : ℝ) / (yi : ℝ)) ≤ period) →
      toneFromRatio xi yi period centsArg = none) := by
  refine ⟨?_, ?_, ?_, ?_⟩
  · intro h
    unfold toneFromCents at h
    split at h
    · rename_i hc
      cases h
      exact hc
    · cases h
  · intro h
    unfold toneFromRatio at h
    dsimp only at h
    split at h
    · rename_i hc
      cases h
      exact ⟨rfl, hc.2⟩
    · cases h
  · intro hn
    unfold toneFromCents
    rw [if_neg hn]
  · intro hn
    unfold toneFromRatio
    dsimp only
    rw [if_neg fun hcond => hn hcond.2]

/-- Witness for C5: Tone(700) within the default period is built and obeys
the invariant; Tone(1300) outside it fails at construction. -/
theorem tone_invariant_witness :
    (0 < (⟨700, none, none⟩ : Tone).cents ∧
      (⟨700, none, none⟩ : Tone).cents ≤ 1200) ∧
    toneFromCents 1300 1200 = none := by
  constructor
  · refine (tone_invariant 700 3 2 1200 none ⟨700, none, none⟩
      ⟨700, none, none⟩).1 ?_
    unfold toneFromCents
    rw [if_pos (⟨by norm_num, by norm_num⟩ : 0 < (700:ℝ) ∧ (700:ℝ) ≤ 1200)]
  · exact (tone_invariant 1300 3 2 1200 none ⟨0, none, none⟩
      ⟨0, none, none⟩).2.2.1 fun h => absurd h.2 (by norm_num)

/-- C8: a ratio tone renders as the string "n/d" if and only if both the
numerator and the denominator are at most 2^31 - 1; when either exceeds the
limit, rendering falls back to the cent value rounded to 6 decimal digits. -/
theorem ratio_rendering_limit (t : Tone) (n d : ℤ)
    (hn : t.ratio_n = some n) (hd : t.ratio_d = some d) :
    (tone_string t = ToneRender.ratioStr n d ↔
      n ≤ 2 ^ 31 - 1 ∧ d ≤ 2 ^ 31 - 1) ∧
    (¬ (n ≤ 2 ^ 31 - 1 ∧ d ≤ 2 ^ 31 - 1) →
      tone_string t = ToneRender.centsStr (roundTo 6 t.cents)) := by
  obtain ⟨c, rn, rd⟩ := t
  cases hn
  cases hd
  simp only [tone_string]
  by_cases hlim : n ≤ 2 ^ 31 - 1 ∧ d ≤ 2 ^ 31 - 1
  · rw [if_pos hlim]
    exact ⟨⟨fun _ => hlim, fun _ => rfl⟩, fun h => absurd hlim h⟩
  · rw [if_neg hlim]
    refine ⟨⟨fun h => ?_, fun h => absurd h hlim⟩, fun _ => rfl⟩
    cases h

/-- Witness for C8: 3/2 renders as a ratio; a tone with numerator 2^31
falls back to the rounded cent value. -/
theorem ratio_rendering_limit_witness :
    tone_string ⟨700, some 3, some 2⟩ = ToneRender.ratioStr 3 2 ∧
    tone_string ⟨700, some (2 ^ 31), some 1⟩ =
      ToneRender.centsStr (roundTo 6 700) := by
  constructor
  · exact ((ratio_rendering_limit ⟨700, some 3, some 2⟩ 3 2 rfl rfl).1).mpr
      (by norm_num)
  · exact (ratio_rendering_limit ⟨700, some (2 ^ 31), some 1⟩ (2 ^ 31) 1
      rfl rfl).2 fun h => absurd h.1 (by norm_num)

/-- Bounds on log(3/2) from the Mercator series at x = -1/2 with 34 terms. -/
lemma log_three_half_bounds :
    (0.4054651080 : ℝ) ≤ Real.log (3 / 2) ∧ Real.log (3 / 2) ≤ 0.4054651082 := by
  have habs : |(-(1/2) : ℝ)| < 1 := by
    rw [abs_neg, abs_of_pos (by norm_num : (0:ℝ) < 1/2)]
    norm_num
  have h := Real.abs_log_sub_add_sum_range_le habs 34
  have h32 : (1 : ℝ) - -(1/2) = 3/2 := by norm_num
  rw [h32] at h
  have hrhs : |(-(1/2) : ℝ)| ^ (34 + 1) / (1 - |(-(1/2) : ℝ)|) =
      1/17179869184 := by
    rw [abs_neg, abs_of_pos (by norm_num : (0:ℝ) < 1/2)]
    norm_num
  rw [hrhs] at h
  have hsum : (∑ i ∈ Finset.range 34, (-(1/2) : ℝ) ^ (i + 1) / (i + 1)) =
      -(35924703078031605618721 / 88601219586316881100800 : ℝ) := by
    norm_num [Finset.sum_range_succ]
  rw [hsum, abs_le] at h
  obtain ⟨h1, h2⟩ := h
  constructor <;> linarith

/-- The cent value of 3/2 rounds to 701.955 at 5 decimal digits:
round(1200*log2(3/2) * 10^5) = 70195500. -/
lemma round5_log2_three_half :
    roundTo 5 (1200 * Real.logb 2 ((3:ℝ) / 2)) = 701.955 := by
  have hT1 : (0.6931471803 : ℝ) < Real.log 2 := Real.log_two_gt_d9
  have hT2 : Real.log 2 < 0.6931471808 := Real.log_two_lt_d9
  obtain ⟨hL1, hL2⟩ := log_three_half_bounds
  have hTpos : (0:ℝ) < Real.log 2 := by linarith
  have hlogb : Real.logb 2 ((3:ℝ)/2) = Real.log (3/2) / Real.log 2 :=
    Real.log_div_log.symm
  have hX : (1200 : ℝ) * Real.logb 2 ((3:ℝ)/2) * 10 ^ 5 =
      120000000 * Real.log (3/2) / Real.log 2 := by
    rw [hlogb]
    ring
  have hlo : (70195499.5 : ℝ) ≤ 120000000 * Real.log (3/2) / Real.log 2 := by
    rw [le_div_iff₀ hTpos]
    calc (70195499.5 : ℝ) * Real.log 2
        ≤ 70195499.5 * 0.6931471808 :=
          mul_le_mul_of_nonneg_left hT2.le (by norm_num)
      _ ≤ 120000000 * 0.4054651080 := by norm_num
      _ ≤ 120000000 * Real.log (3/2) := by linarith
  have hhi : 120000000 * Real.log (3/2) / Real.log 2 < 70195500.5 := by
    rw [div_lt_iff₀ hTpos]
    calc (120000000:ℝ) * Real.log (3/2)
        ≤ 120000000 * 0.4054651082 := by linarith
      _ < 70195500.5 * 0.6931471803 := by norm_num
      _ < 70195500.5 * Real.log 2 :=
          mul_lt_mul_of_pos_left hT1 (by norm_num)
  have hround : round ((1200 : ℝ) * Real.logb 2 ((3:ℝ)/2) * 10 ^ 5) =
      70195500 := by
    rw [round_eq, hX]
    refine Int.floor_eq_iff.mpr ⟨?_, ?_⟩
    · push_cast
      linarith
    · push_cast
      linarith
  unfold roundTo
  rw [hround]
  norm_num

/-- Rounding to k digits is idempotent. -/
lemma roundTo_idem (k : ℕ) (x : ℝ) : roundTo k (roundTo k x) = roundTo k x := by
  unfold roundTo
  rw [div_mul_cancel₀ _ (ne_of_gt (by positivity : (0:ℝ) < 10 ^ k)),
    round_intCast]

/-- Pointwise pre-rounded cent values give the same rounded-cents list. -/
lemma map_round_eq {A B : List STone}
    (h : List.Forall₂ (fun a b => b.cents = roundTo 5 a.cents) A B) :
    A.map (fun t => roundTo 5 t.cents) = B.map (fun t => roundTo 5 t.cents) := by
  induction h with
  | nil => rfl
  | cons hab _ ih =>
    simp only [List.map_cons]
    rw [ih]
    congr 1
    rw [hab, roundTo_idem]

/-- Once the first of two equal-fingerprint scales is accepted, the
`write_out_results` loop drops the second. -/
lemma write_out_loop_dedup {s1 s2 : SScale} {out : List SScale}
    (h1 : validate_scale s1)
    (hfp : fingerprint s1.tones = fingerprint s2.tones)
    (h : write_out_loop [s1, s2] [] out) : out = [s1] := by
  rcases h with ⟨hns, -⟩ | ⟨-, hm, -⟩ | ⟨-, -, rest_out, rfl, hrest⟩
  · exact absurd h1 hns
  · cases hm
  · rcases hrest with ⟨-, ho⟩ | ⟨-, -, ho⟩ | ⟨-, hnm, -, -, -⟩
    · rw [show rest_out = [] from ho]
    · rw [show rest_out = [] from ho]
    · exact absurd (by rw [← hfp]; exact List.mem_cons_self _ _) hnm

/-- C4: the fingerprint is the sorted tuple (here: multiset) of cents rounded
to 5 decimal digits; tone lists that are mathematically identical but with
the cents pre-rounded (ratio 3/2 versus the cent value 701.955) have equal
fingerprints, and the dedup loop keeps only the first of two scales with
equal fingerprints. -/
theorem fingerprint_representation_stable (A B : List STone) (s1 s2 : SScale)
    (hAB : List.Forall₂ (fun a b => b.cents = roundTo 5 a.cents) A B) :
    fingerprint A = fingerprint B ∧
    (validate_scale s1 → fingerprint s1.tones = fingerprint s2.tones →
      ∀ out, write_out_loop [s1, s2] [] out → out = [s1]) := by
  constructor
  · unfold fingerprint
    rw [map_round_eq hAB]
  · intro h1 hfp out h
    exact write_out_loop_dedup h1 hfp h

/-- `validate_scale` holds for the concrete ratio scale `scaleRatio32`. -/
lemma scaleRatio32_valid : validate_scale scaleRatio32 := by
  refine ⟨by decide, by decide, by decide, ?_⟩
  intro t ht
  have ht' : t = toneRatio32 := by
    simpa [scaleRatio32] using ht
  subst ht'
  refine ⟨by decide, ⟨1200 * Real.logb 2 ((3:ℝ)/2), ?_, ?_⟩, by decide⟩
  · have hdot : ¬ ('.' ∈ base_tone_string toneRatio32.string_rep) := by decide
    rw [centValueR, if_neg hdot]
    refine ⟨(3, 2), by decide, by norm_num, by norm_num⟩
  · have hc : toneRatio32.cents = 1200 * Real.logb 2 ((3:ℝ)/2) := rfl
    rw [hc, sub_self, abs_zero]
    norm_num

/-- Witness for C4 at the claim's own example: the scale containing 3/2 and
the scale containing 701.955 have equal fingerprints, and processing them
together keeps only the first. -/
theorem fingerprint_representation_stable_witness :
    fingerprint scaleRatio32.tones = fingerprint scaleCents701955.tones ∧
    ∀ out, write_out_loop [scaleRatio32, scaleCents701955] [] out →
      out = [scaleRatio32] := by
  have hAB : List.Forall₂ (fun a b => b.cents = roundTo 5 a.cents)
      scaleRatio32.tones scaleCents701955.tones := by
    refine List.Forall₂.cons ?_ List.Forall₂.nil
    show toneCents701955.cents = roundTo 5 toneRatio32.cents
    have hc : toneRatio32.cents = 1200 * Real.logb 2 ((3:ℝ)/2) := rfl
    rw [hc, round5_log2_three_half]
    rfl
  have h := fingerprint_representation_stable scaleRatio32.tones
    scaleCents701955.tones scaleRatio32 scaleCents701955 hAB
  exact ⟨h.1, h.2 scaleRatio32_valid h.1⟩

end ScaleLibrary
